import Mathlib

/-!
Shallow embedding of `src/HmKitCrypto.js` (hm-node-crypto).

Buffers are modelled as `List Nat` of byte values. `Buffer.slice start stop`
(which clamps out-of-range bounds) is `jsSlice`. The external cryptographic
primitives (AES-128 single-block encryption, HMAC-SHA256, ECDH secret
computation) are not part of this repository; functions that call them take
them as explicit function parameters.
-/

namespace HmKitCrypto

/-- JS `buf.slice(start, stop)` with non-negative in-order bounds:
the bytes at indices `[start, min stop len)`. -/
def jsSlice (l : List Nat) (start stop : Nat) : List Nat :=
  (l.take stop).drop start

/-- `fill64Blocks` from the source: if the length is a multiple of 64 return
the message unchanged, else append zero bytes up to the next multiple of 64. -/
def fill64Blocks (message : List Nat) : List Nat :=
  if message.length % 64 = 0 then message
  else message ++ List.replicate (64 - message.length % 64) 0

/-- `removeLeftZeros` from the source: the while loop drops leading zero bytes
one at a time (slicing from index `i`), stopping when the remaining first byte
is nonzero or the remainder is empty. -/
def removeLeftZeros : List Nat → List Nat
  | [] => []
  | b :: rest => if b = 0 then removeLeftZeros rest else b :: rest

/-- `prependZeroIfNeeded` from the source: strip leading zeros, then prepend a
zero byte when the high bit (0x80) of the first byte is set. An empty buffer
indexes as JS `undefined`, which the bitwise `&` coerces to 0. -/
def prependZeroIfNeeded (bytes : List Nat) : List Nat :=
  let b := removeLeftZeros bytes
  if b.headD 0 &&& 0x80 = 0x80 then 0 :: b else b

/-- `fixSizeTo32` from the source: return unchanged at length 32, keep the last
32 bytes when longer, left-pad with zero bytes when shorter. -/
def fixSizeTo32 (binary : List Nat) : List Nat :=
  if binary.length = 32 then binary
  else if binary.length > 32 then
    jsSlice binary (binary.length - 32) binary.length
  else List.replicate (32 - binary.length) 0 ++ binary

/-- `fillSignature` from the source: encode a 64-byte fixed-width (r ‖ s)
signature as DER `SEQUENCE { INTEGER r, INTEGER s }`. -/
def fillSignature (shortSignature : List Nat) : List Nat :=
  let vr := prependZeroIfNeeded (jsSlice shortSignature 0 32)
  let vs := prependZeroIfNeeded (jsSlice shortSignature 32 64)
  let b2 := vr.length
  let b3 := vs.length
  let b1 := 4 + b2 + b3
  [0x30, b1, 0x02, b2] ++ vr ++ [0x02, b3] ++ vs

/-- `stripSignature` from the source: read the r-length byte at index 3, slice
out r, advance past the `0x02` tag, read the s-length byte, slice out s, and
normalize both halves to 32 bytes. Out-of-range JS reads yield `undefined`,
which propagates through the arithmetic to an empty slice, exactly as a
default byte of 0 does here. -/
def stripSignature (signature : List Nat) : List Nat :=
  let secVrSize := signature.getD 3 0
  let secVr := jsSlice signature 4 (4 + secVrSize)
  let secVsSize := signature.getD (3 + secVrSize + 1 + 1) 0
  let secVs := jsSlice signature (3 + secVrSize + 1 + 1 + 1)
    (3 + secVrSize + 1 + 1 + 1 + secVsSize)
  fixSizeTo32 secVr ++ fixSizeTo32 secVs

/-- `xor` from the source: byte-wise XOR over the indices of the first
argument; a missing byte of `b` reads as JS `undefined`, coerced to 0. -/
def xor (a b : List Nat) : List Nat :=
  (List.range a.length).map fun i => a.getD i 0 ^^^ b.getD i 0

/-- `computeSecret` from the source, with the external ECDH primitive as a
parameter: prefix the public key with the `0x04` uncompressed-point tag and
delegate. -/
def computeSecret (ecdhSecret : List Nat → List Nat → List Nat)
    (privateKey publicKey : List Nat) : List Nat :=
  ecdhSecret privateKey (4 :: publicKey)

/-- `hmac` from the source, with the external HMAC-SHA256 primitive as a
parameter: pad the message to a 64-byte boundary, then MAC. -/
def hmac (hmacSha256 : List Nat → List Nat → List Nat)
    (key message : List Nat) : List Nat :=
  hmacSha256 key (fill64Blocks message)

/-- `sessionKey` from the source: HMAC the nonce with the ECDH shared secret
as the key. -/
def sessionKey (hmacSha256 ecdhSecret : List Nat → List Nat → List Nat)
    (privateKey publicKey nonce : List Nat) : List Nat :=
  hmac hmacSha256 (computeSecret ecdhSecret privateKey publicKey) nonce

/-- Node's streaming ECB cipher `update`: encrypt each complete 16-byte block
with the block primitive; a trailing partial block is buffered, so it
contributes nothing to the returned bytes. -/
def ecbEncryptUpdate (aesBlock : List Nat → List Nat → List Nat)
    (key input : List Nat) : List Nat :=
  if input.length < 16 then []
  else aesBlock key (input.take 16) ++ ecbEncryptUpdate aesBlock key (input.drop 16)
termination_by input.length
decreasing_by simp [List.length_drop]; omega

/-- The source's `while` loop tiling the keystream block to at least the
message length. When the block is empty and the target positive, the JS loop
never terminates; that divergence is `none`. -/
def tileLoop (cipher acc : List Nat) (n : Nat) : Option (List Nat) :=
  if acc.length < n then
    if cipher.length = 0 then none
    else tileLoop cipher (acc ++ cipher) n
  else some acc
termination_by n - acc.length
decreasing_by simp [List.length_append]; omega

/-- `encryptDecrypt` from the source: derive the session key, take its first
16 bytes as the AES key, build the IV as `nonce[0:7] ‖ nonce`, encrypt the IV
in ECB mode to get the keystream block, tile it to the message length, and
XOR with the message. `none` models the non-terminating tiling loop. -/
def encryptDecrypt (aesBlock hmacSha256 ecdhSecret : List Nat → List Nat → List Nat)
    (message privateKey publicKey nonce : List Nat) : Option (List Nat) :=
  let sessionKeyValue := sessionKey hmacSha256 ecdhSecret privateKey publicKey nonce
  let encryptionKey := jsSlice sessionKeyValue 0 16
  let iv := jsSlice nonce 0 7 ++ nonce
  let cipher := ecbEncryptUpdate aesBlock encryptionKey iv
  (tileLoop cipher cipher message.length).map fun t =>
    xor (jsSlice t 0 message.length) message

end HmKitCrypto

namespace HmKitCrypto

/-! ### Basic lemmas about the byte normalizers -/

theorem removeLeftZeros_eq_dropWhile (l : List Nat) :
    removeLeftZeros l = l.dropWhile (· == 0) := by
  induction l with
  | nil => rfl
  | cons b rest ih =>
    by_cases hb : b = 0
    · simp [removeLeftZeros, hb, List.dropWhile_cons, ih]
    · simp [removeLeftZeros, hb, List.dropWhile_cons]

theorem removeLeftZeros_length_le (l : List Nat) :
    (removeLeftZeros l).length ≤ l.length := by
  induction l with
  | nil => simp [removeLeftZeros]
  | cons b rest ih =>
    by_cases hb : b = 0
    · simp only [removeLeftZeros, if_pos hb]
      exact le_trans ih (by simp)
    · simp [removeLeftZeros, hb]

/-- `removeLeftZeros` removes exactly a prefix of zero bytes. -/
theorem replicate_append_removeLeftZeros (l : List Nat) :
    List.replicate (l.length - (removeLeftZeros l).length) 0 ++ removeLeftZeros l = l := by
  induction l with
  | nil => simp [removeLeftZeros]
  | cons b rest ih =>
    by_cases hb : b = 0
    · have hle := removeLeftZeros_length_le rest
      simp only [removeLeftZeros, if_pos hb, List.length_cons]
      have : rest.length + 1 - (removeLeftZeros rest).length
          = (rest.length - (removeLeftZeros rest).length) + 1 := by omega
      rw [this, List.replicate_succ, List.cons_append, ih, hb]
    · simp [removeLeftZeros, hb]

/-! ### Claims about the byte normalizers and padding -/

/-- Counterexample to C5: on the all-zero one-byte input, `removeLeftZeros`
returns the empty sequence, not a single zero byte as the claim states. -/
theorem removeLeftZeros_all_zero_counterexample :
    removeLeftZeros [0] = [] ∧ removeLeftZeros [0] ≠ [0] := by
  decide

/-- Amended C5: `removeLeftZeros` drops zero bytes from the front up to the
first nonzero byte; on an input consisting entirely of zero bytes the result
is the empty sequence (the loop's final iteration slices past the last zero),
never a single zero byte. -/
theorem removeLeftZeros_spec (l : List Nat) :
    removeLeftZeros l = l.dropWhile (· == 0) ∧
    ((∀ b ∈ l, b = 0) → removeLeftZeros l = []) := by
  refine ⟨removeLeftZeros_eq_dropWhile l, fun hall => ?_⟩
  induction l with
  | nil => rfl
  | cons b rest ih =>
    have hb : b = 0 := hall b (by simp)
    simp only [removeLeftZeros, if_pos hb]
    exact ih fun x hx => hall x (by simp [hx])

/-- Witness for C5: the amended claim evaluated at a concrete all-zero input. -/
theorem removeLeftZeros_spec_witness :
    removeLeftZeros [0, 0, 0] = [0, 0, 0].dropWhile (· == 0) ∧
    removeLeftZeros [0, 0, 0] = [] :=
  ⟨(removeLeftZeros_spec [0, 0, 0]).1,
   (removeLeftZeros_spec [0, 0, 0]).2 (by decide)⟩

/-- Claim C7: `fixSizeTo32` always returns exactly 32 bytes; it returns a 32-byte
input unchanged, keeps the last 32 bytes of a longer input, and left-pads a
shorter input with zero bytes. -/
theorem fixSizeTo32_spec (b : List Nat) :
    (fixSizeTo32 b).length = 32 ∧
    (b.length = 32 → fixSizeTo32 b = b) ∧
    (b.length > 32 → fixSizeTo32 b = b.drop (b.length - 32)) ∧
    (b.length < 32 → fixSizeTo32 b = List.replicate (32 - b.length) 0 ++ b) := by
  refine ⟨?_, fun h => by simp [fixSizeTo32, h], fun h => ?_, fun h => ?_⟩
  · by_cases h32 : b.length = 32
    · simp [fixSizeTo32, h32]
    · by_cases hgt : b.length > 32
      · simp only [fixSizeTo32, if_neg h32, if_pos hgt, jsSlice, List.take_length,
          List.length_drop]
        omega
      · simp only [fixSizeTo32, if_neg h32, if_neg hgt, List.length_append,
          List.length_replicate]
        omega
  · simp only [fixSizeTo32, if_neg (by omega : ¬ b.length = 32), if_pos h, jsSlice,
      List.take_length]
  · have h1 : ¬ b.length = 32 := by omega
    have h2 : ¬ b.length > 32 := by omega
    simp only [fixSizeTo32]
    rw [if_neg h1, if_neg h2]

/-- Witness for C7: the claim evaluated at a concrete short input. -/
theorem fixSizeTo32_spec_witness :
    (fixSizeTo32 [7, 8]).length = 32 ∧
    fixSizeTo32 [7, 8] = List.replicate 30 0 ++ [7, 8] :=
  ⟨(fixSizeTo32_spec [7, 8]).1, (fixSizeTo32_spec [7, 8]).2.2.2 (by decide)⟩

/-- Claim C8: `fill64Blocks` (pad64) is idempotent, its output length is a multiple
of 64, a message whose length is a multiple of 64 is returned unchanged, and
otherwise zero bytes are appended up to the next multiple of 64. -/
theorem fill64Blocks_spec (m : List Nat) :
    fill64Blocks (fill64Blocks m) = fill64Blocks m ∧
    (fill64Blocks m).length % 64 = 0 ∧
    (m.length % 64 = 0 → fill64Blocks m = m) ∧
    (m.length % 64 ≠ 0 →
      fill64Blocks m = m ++ List.replicate (64 - m.length % 64) 0) := by
  have hmul : ∀ x : List Nat, x.length % 64 = 0 → fill64Blocks x = x :=
    fun x h => by simp [fill64Blocks, h]
  have hlen : (fill64Blocks m).length % 64 = 0 := by
    by_cases h : m.length % 64 = 0
    · rw [hmul m h]; exact h
    · simp only [fill64Blocks, if_neg h, List.length_append, List.length_replicate]
      omega
  exact ⟨hmul _ hlen, hlen, hmul m, fun h => by simp [fill64Blocks, h]⟩

/-- Witness for C8: the claim evaluated at a concrete 3-byte message. -/
theorem fill64Blocks_spec_witness :
    fill64Blocks (fill64Blocks [1, 2, 3]) = fill64Blocks [1, 2, 3] ∧
    (fill64Blocks [1, 2, 3]).length % 64 = 0 ∧
    fill64Blocks [1, 2, 3] = [1, 2, 3] ++ List.replicate 61 0 :=
  ⟨(fill64Blocks_spec [1, 2, 3]).1, (fill64Blocks_spec [1, 2, 3]).2.1,
   (fill64Blocks_spec [1, 2, 3]).2.2.2 (by decide)⟩

/-! ### DER signature codec lemmas -/

theorem prependZeroIfNeeded_length_le (x : List Nat) :
    (prependZeroIfNeeded x).length ≤ x.length + 1 := by
  have hle := removeLeftZeros_length_le x
  unfold prependZeroIfNeeded
  by_cases hc : (removeLeftZeros x).headD 0 &&& 0x80 = 0x80
  · simp only [if_pos hc, List.length_cons]; omega
  · simp only [if_neg hc]; omega

/-- Re-normalizing an integer component of a well-formed 32-byte value
recovers it: `fixSizeTo32` undoes `prependZeroIfNeeded`. -/
theorem fixSizeTo32_prependZeroIfNeeded (r : List Nat) (hr : r.length = 32) :
    fixSizeTo32 (prependZeroIfNeeded r) = r := by
  have hst := replicate_append_removeLeftZeros r
  have hle := removeLeftZeros_length_le r
  rw [hr] at hst hle
  unfold prependZeroIfNeeded
  by_cases hc : (removeLeftZeros r).headD 0 &&& 0x80 = 0x80
  · rw [if_pos hc]
    by_cases h32 : (removeLeftZeros r).length = 32
    · have hgt : (0 :: removeLeftZeros r).length > 32 := by simp [h32]
      have hne : ¬ (0 :: removeLeftZeros r).length = 32 := by omega
      simp only [fixSizeTo32, if_neg hne, if_pos hgt, jsSlice]
      rw [List.take_of_length_le (by simp [h32])]
      simp only [List.length_cons, h32]
      rw [show 32 + 1 - 32 = 1 from rfl, List.drop_one, List.tail_cons]
      rw [h32] at hst
      simpa using hst
    · by_cases heq : (0 :: removeLeftZeros r).length = 32
      · simp only [fixSizeTo32, if_pos heq]
        have hk : 32 - (removeLeftZeros r).length = 1 := by simp at heq; omega
        rw [hk] at hst
        simpa using hst
      · have hne32 : ¬ (0 :: removeLeftZeros r).length = 32 := heq
        have hngt : ¬ (0 :: removeLeftZeros r).length > 32 := by simp; omega
        simp only [fixSizeTo32, if_neg hne32, if_neg hngt]
        have hpad : List.replicate (32 - (0 :: removeLeftZeros r).length) 0
            ++ 0 :: removeLeftZeros r
            = List.replicate (32 - (removeLeftZeros r).length) 0
            ++ removeLeftZeros r := by
          rw [show 32 - (removeLeftZeros r).length
              = (32 - (0 :: removeLeftZeros r).length) + 1 from by simp at heq ⊢; omega,
            List.replicate_succ']
          simp
        rw [hpad]
        exact hst
  · rw [if_neg hc]
    by_cases h32 : (removeLeftZeros r).length = 32
    · simp only [fixSizeTo32, if_pos h32]
      rw [h32] at hst
      simpa using hst
    · have hne : ¬ (removeLeftZeros r).length = 32 := h32
      have hngt : ¬ (removeLeftZeros r).length > 32 := by omega
      simp only [fixSizeTo32, if_neg hne, if_neg hngt]
      exact hst

/-- Slicing a concatenation from the end of a known prefix of the given
start index returns the suffix. -/
theorem jsSlice_append_suffix (A B : List Nat) (s : Nat) (hs : s = A.length) :
    jsSlice (A ++ B) s (s + B.length) = B := by
  subst hs
  unfold jsSlice
  rw [List.take_of_length_le (by simp), List.drop_left]

/-- Slicing out the middle component of a three-part concatenation. -/
theorem jsSlice_append_middle (A B C : List Nat) (s t : Nat)
    (hs : s = A.length) (ht : t = A.length + B.length) :
    jsSlice ((A ++ B) ++ C) s t = B := by
  subst hs ht
  unfold jsSlice
  rw [List.take_append_eq_append_take,
    List.take_of_length_le (show (A ++ B).length ≤ A.length + B.length from by simp),
    show A.length + B.length - (A ++ B).length = 0 from by simp,
    List.take_zero, List.append_nil, List.drop_left]

/-- Decoding a well-formed two-INTEGER DER sequence extracts the two
components and normalizes each to 32 bytes. The outer length byte `b1` is
never inspected by the decoder. -/
theorem stripSignature_wellFormed (vr vs : List Nat) (b1 : Nat) :
    stripSignature ([0x30, b1, 0x02, vr.length] ++ vr ++ [0x02, vs.length] ++ vs)
      = fixSizeTo32 vr ++ fixSizeTo32 vs := by
  have hgetVr : ([0x30, b1, 0x02, vr.length] ++ vr ++ [0x02, vs.length] ++ vs).getD 3 0
      = vr.length := by
    rw [List.getD_append _ _ _ _ (by simp)]
    rfl
  have hsliceVr : jsSlice ([0x30, b1, 0x02, vr.length] ++ vr ++ [0x02, vs.length] ++ vs)
      4 (4 + vr.length) = vr := by
    have hre : [0x30, b1, 0x02, vr.length] ++ vr ++ [0x02, vs.length] ++ vs
        = ([0x30, b1, 0x02, vr.length] ++ vr) ++ ([0x02, vs.length] ++ vs) := by
      simp [List.append_assoc]
    rw [hre]
    exact jsSlice_append_middle [0x30, b1, 0x02, vr.length] vr ([0x02, vs.length] ++ vs)
      4 (4 + vr.length) (by rfl) (by rfl)
  have hgetVs : ([0x30, b1, 0x02, vr.length] ++ vr ++ [0x02, vs.length] ++ vs).getD
      (3 + vr.length + 1 + 1) 0 = vs.length := by
    rw [List.getD_append _ _ _ _ (by simp; omega)]
    rw [List.getD_append_right _ _ _ _ (by simp; omega)]
    rw [show 3 + vr.length + 1 + 1 - ([0x30, b1, 0x02, vr.length] ++ vr).length = 1
      from by simp; omega]
    rfl
  have hsliceVs : jsSlice ([0x30, b1, 0x02, vr.length] ++ vr ++ [0x02, vs.length] ++ vs)
      (3 + vr.length + 1 + 1 + 1) (3 + vr.length + 1 + 1 + 1 + vs.length) = vs := by
    exact jsSlice_append_suffix _ _ _ (by simp; omega)
  simp only [stripSignature]
  rw [hgetVr, hsliceVr, hgetVs, hsliceVs]

/-- Claim C1: decoding the DER encoding of any 64-byte fixed-width signature
returns the signature exactly, including inputs whose 32-byte halves carry
leading zero bytes or a set high bit in the first nonzero byte. -/
theorem stripSignature_fillSignature (rs : List Nat) (h : rs.length = 64) :
    stripSignature (fillSignature rs) = rs := by
  have htake : (jsSlice rs 0 32).length = 32 := by
    simp [jsSlice, h]
  have hdrop : (jsSlice rs 32 64).length = 32 := by
    simp [jsSlice, h]
  have h1 : jsSlice rs 0 32 = rs.take 32 := by
    simp [jsSlice]
  have h2 : jsSlice rs 32 64 = rs.drop 32 := by
    unfold jsSlice
    rw [List.take_of_length_le (by omega)]
  simp only [fillSignature]
  rw [stripSignature_wellFormed]
  rw [fixSizeTo32_prependZeroIfNeeded _ htake, fixSizeTo32_prependZeroIfNeeded _ hdrop]
  rw [h1, h2]
  exact List.take_append_drop 32 rs

/-- Witness for C1: the round trip evaluated at a concrete edge-case signature
whose r half starts with a zero byte followed by a high-bit byte and whose s
half starts with a high-bit byte. -/
theorem stripSignature_fillSignature_witness :
    stripSignature (fillSignature
      ([0x00, 0x89] ++ List.replicate 30 0xab ++ (0x80 :: List.replicate 31 1)))
      = [0x00, 0x89] ++ List.replicate 30 0xab ++ (0x80 :: List.replicate 31 1) :=
  stripSignature_fillSignature _ (by simp)

/-- Claim C10: for a 64-byte input, each normalized DER integer component is at
most 33 bytes long, the outer length byte `b1 = 4 + len r + len s` is at most
70, and the whole encoded signature is at most 72 bytes. -/
theorem fillSignature_size (rs : List Nat) (h : rs.length = 64) :
    (prependZeroIfNeeded (jsSlice rs 0 32)).length ≤ 33 ∧
    (prependZeroIfNeeded (jsSlice rs 32 64)).length ≤ 33 ∧
    (fillSignature rs).getD 1 0 ≤ 70 ∧
    (fillSignature rs).length ≤ 72 := by
  have h1 : (jsSlice rs 0 32).length = 32 := by simp [jsSlice, h]
  have h2 : (jsSlice rs 32 64).length = 32 := by simp [jsSlice, h]
  have p1 := prependZeroIfNeeded_length_le (jsSlice rs 0 32)
  have p2 := prependZeroIfNeeded_length_le (jsSlice rs 32 64)
  rw [h1] at p1
  rw [h2] at p2
  have hb1 : (fillSignature rs).getD 1 0
      = 4 + (prependZeroIfNeeded (jsSlice rs 0 32)).length
        + (prependZeroIfNeeded (jsSlice rs 32 64)).length := by
    simp only [fillSignature]
    rw [List.getD_append _ _ _ _ (by simp)]
    rfl
  have hlen : (fillSignature rs).length
      = 6 + (prependZeroIfNeeded (jsSlice rs 0 32)).length
        + (prependZeroIfNeeded (jsSlice rs 32 64)).length := by
    simp only [fillSignature, List.length_append, List.length_cons, List.length_nil]
    omega
  exact ⟨by omega, by omega, by rw [hb1]; omega, by rw [hlen]; omega⟩

/-- Witness for C10: the size bounds evaluated at the all-zero 64-byte input. -/
theorem fillSignature_size_witness :
    (prependZeroIfNeeded (jsSlice (List.replicate 64 0) 0 32)).length ≤ 33 ∧
    (prependZeroIfNeeded (jsSlice (List.replicate 64 0) 32 64)).length ≤ 33 ∧
    (fillSignature (List.replicate 64 0)).getD 1 0 ≤ 70 ∧
    (fillSignature (List.replicate 64 0)).length ≤ 72 :=
  fillSignature_size (List.replicate 64 0) (by simp)

/-- Claim C4: `stripSignature` never inspects the outer SEQUENCE length byte and
clamps its slices, so on this malformed 8-byte DER buffer — whose outer
length byte reads 0 although 6 content bytes follow — it still returns a
64-byte result instead of failing. -/
theorem stripSignature_malformed :
    ([0x30, 0x00, 0x02, 0x01, 0xFF, 0x02, 0x01, 0x01] : List Nat).getD 1 0 = 0 ∧
    ([0x30, 0x00, 0x02, 0x01, 0xFF, 0x02, 0x01, 0x01] : List Nat).length = 8 ∧
    stripSignature [0x30, 0x00, 0x02, 0x01, 0xFF, 0x02, 0x01, 0x01]
      = (List.replicate 31 0 ++ [0xFF]) ++ (List.replicate 31 0 ++ [0x01]) := by
  refine ⟨rfl, rfl, ?_⟩
  decide

/-! ### Session key derivation -/

/-- Claim C6: `sessionKey` is HMAC-SHA256 keyed with the ECDH shared secret applied
to the nonce padded to a 64-byte boundary; it is deterministic in its inputs
and returns 32 bytes whenever the HMAC primitive does. -/
theorem sessionKey_spec (hmacSha256 ecdhSecret : List Nat → List Nat → List Nat)
    (privateKey publicKey nonce : List Nat)
    (h32 : ∀ k m, (hmacSha256 k m).length = 32) :
    sessionKey hmacSha256 ecdhSecret privateKey publicKey nonce
      = hmacSha256 (computeSecret ecdhSecret privateKey publicKey)
          (fill64Blocks nonce) ∧
    (sessionKey hmacSha256 ecdhSecret privateKey publicKey nonce).length = 32 :=
  ⟨rfl, h32 _ _⟩

/-- Witness for C6: the derivation applied at concrete inputs and primitives. -/
theorem sessionKey_spec_witness :
    sessionKey (fun _ _ => List.replicate 32 7) (fun _ _ => [1]) [2] [3] [4]
      = (fun _ _ => (List.replicate 32 7 : List Nat))
          (computeSecret (fun _ _ => [1]) [2] [3]) (fill64Blocks [4]) ∧
    (sessionKey (fun _ _ => List.replicate 32 7) (fun _ _ => [1]) [2] [3] [4]).length
      = 32 :=
  sessionKey_spec (fun _ _ => List.replicate 32 7) (fun _ _ => [1]) [2] [3] [4]
    (fun _ _ => by simp)

/-! ### Keystream cipher lemmas -/

theorem xor_length (a b : List Nat) : (xor a b).length = a.length := by
  simp [xor]

theorem xor_getD (a b : List Nat) (i : Nat) (hi : i < a.length) :
    (xor a b).getD i 0 = a.getD i 0 ^^^ b.getD i 0 := by
  unfold xor
  rw [List.getD_eq_getElem _ _ (by simpa using hi)]
  simp

/-- Byte-wise XOR with the same left operand is an involution when the
operand is at least as long as the message. -/
theorem xor_xor_cancel (k m : List Nat) (h : k.length = m.length) :
    xor k (xor k m) = m := by
  apply List.ext_getElem
  · simp [xor, h]
  · intro i h1 h2
    have hik : i < k.length := by simpa [xor] using h1
    have him : i < m.length := by omega
    have e1 : (xor k (xor k m))[i] = (xor k (xor k m)).getD i 0 :=
      (List.getD_eq_getElem _ _ h1).symm
    rw [e1, xor_getD _ _ _ hik, xor_getD _ _ _ hik,
      ← Nat.xor_assoc, Nat.xor_self, Nat.zero_xor,
      List.getD_eq_getElem _ _ him]

/-- When the keystream block is nonempty, the tiling loop terminates and
returns an accumulator at least as long as the target. -/
theorem tileLoop_some (cipher : List Nat) (hc : ¬ cipher.length = 0)
    (acc : List Nat) (n : Nat) :
    ∃ t, tileLoop cipher acc n = some t ∧ n ≤ t.length := by
  by_cases h : acc.length < n
  · rw [tileLoop, if_pos h, if_neg hc]
    exact tileLoop_some cipher hc (acc ++ cipher) n
  · rw [tileLoop, if_neg h]
    exact ⟨acc, rfl, by omega⟩
termination_by n - acc.length
decreasing_by simp [List.length_append]; omega

/-- With a nonce of at least 9 bytes and a genuine 16-byte block primitive,
the keystream block returned by the single ECB `update` call is nonempty. -/
theorem cipher_nonempty (aesBlock : List Nat → List Nat → List Nat)
    (key nonce : List Nat) (h9 : 9 ≤ nonce.length)
    (hblk : ∀ k b, (aesBlock k b).length = 16) :
    ¬ (ecbEncryptUpdate aesBlock key (jsSlice nonce 0 7 ++ nonce)).length = 0 := by
  have hiv : 16 ≤ (jsSlice nonce 0 7 ++ nonce).length := by
    simp [jsSlice]
    omega
  rw [ecbEncryptUpdate, if_neg (by omega)]
  simp [hblk]

/-- Claim C2: with any key pair, any primitives whose AES block output is 16 bytes,
and a nonce of at least 9 bytes, `encryptDecrypt` applied twice with the same
key pair and nonce returns the original message. -/
theorem encryptDecrypt_involution
    (aesBlock hmacSha256 ecdhSecret : List Nat → List Nat → List Nat)
    (m privateKey publicKey nonce : List Nat)
    (h9 : 9 ≤ nonce.length)
    (hblk : ∀ k b, (aesBlock k b).length = 16) :
    ∃ c, encryptDecrypt aesBlock hmacSha256 ecdhSecret m privateKey publicKey nonce
        = some c ∧
      encryptDecrypt aesBlock hmacSha256 ecdhSecret c privateKey publicKey nonce
        = some m := by
  obtain ⟨t, ht, htlen⟩ := tileLoop_some _
    (cipher_nonempty aesBlock
      (jsSlice (sessionKey hmacSha256 ecdhSecret privateKey publicKey nonce) 0 16)
      nonce h9 hblk)
    (ecbEncryptUpdate aesBlock
      (jsSlice (sessionKey hmacSha256 ecdhSecret privateKey publicKey nonce) 0 16)
      (jsSlice nonce 0 7 ++ nonce)) m.length
  have hklen : (jsSlice t 0 m.length).length = m.length := by
    simp [jsSlice]
    omega
  refine ⟨xor (jsSlice t 0 m.length) m, ?_, ?_⟩
  · simp only [encryptDecrypt]
    rw [ht]
    rfl
  · simp only [encryptDecrypt]
    rw [xor_length, hklen, ht]
    simp only [Option.map_some']
    rw [xor_xor_cancel _ _ hklen]

/-- Witness for C2: the involution at a concrete message, key pair, nonce, and
primitives. -/
theorem encryptDecrypt_involution_witness :
    ∃ c, encryptDecrypt (fun _ _ => List.replicate 16 1) (fun _ _ => List.replicate 32 2)
        (fun _ _ => [3]) [10, 20, 30] [4] [5] (List.replicate 9 6) = some c ∧
      encryptDecrypt (fun _ _ => List.replicate 16 1) (fun _ _ => List.replicate 32 2)
        (fun _ _ => [3]) c [4] [5] (List.replicate 9 6) = some [10, 20, 30] :=
  encryptDecrypt_involution (fun _ _ => List.replicate 16 1)
    (fun _ _ => List.replicate 32 2) (fun _ _ => [3]) [10, 20, 30] [4] [5]
    (List.replicate 9 6) (by simp) (fun _ _ => by simp)

/-- Claim C9: under the same conditions, the output of `encryptDecrypt` has exactly
the length of the input message. -/
theorem encryptDecrypt_length
    (aesBlock hmacSha256 ecdhSecret : List Nat → List Nat → List Nat)
    (m privateKey publicKey nonce : List Nat)
    (h9 : 9 ≤ nonce.length)
    (hblk : ∀ k b, (aesBlock k b).length = 16) :
    ∃ c, encryptDecrypt aesBlock hmacSha256 ecdhSecret m privateKey publicKey nonce
        = some c ∧ c.length = m.length := by
  obtain ⟨t, ht, htlen⟩ := tileLoop_some _
    (cipher_nonempty aesBlock
      (jsSlice (sessionKey hmacSha256 ecdhSecret privateKey publicKey nonce) 0 16)
      nonce h9 hblk)
    (ecbEncryptUpdate aesBlock
      (jsSlice (sessionKey hmacSha256 ecdhSecret privateKey publicKey nonce) 0 16)
      (jsSlice nonce 0 7 ++ nonce)) m.length
  refine ⟨xor (jsSlice t 0 m.length) m, ?_, ?_⟩
  · simp only [encryptDecrypt]
    rw [ht]
    rfl
  · rw [xor_length]
    simp [jsSlice]
    omega

/-- Witness for C9: the length preservation at a concrete message and nonce. -/
theorem encryptDecrypt_length_witness :
    ∃ c, encryptDecrypt (fun _ _ => List.replicate 16 1) (fun _ _ => List.replicate 32 2)
        (fun _ _ => [3]) [10, 20] [4] [5] (List.replicate 10 6) = some c ∧
      c.length = ([10, 20] : List Nat).length :=
  encryptDecrypt_length (fun _ _ => List.replicate 16 1)
    (fun _ _ => List.replicate 32 2) (fun _ _ => [3]) [10, 20] [4] [5]
    (List.replicate 10 6) (by simp) (fun _ _ => by simp)

/-- Claim C3: with a 5-byte nonce the IV is only 10 bytes, the ECB `update` call
returns no complete block, and the source's tiling loop never terminates for
a nonempty message — modelled as `none`. No `InvalidNonceLength` error is
raised. -/
theorem encryptDecrypt_short_nonce
    (aesBlock hmacSha256 ecdhSecret : List Nat → List Nat → List Nat)
    (privateKey publicKey : List Nat) :
    encryptDecrypt aesBlock hmacSha256 ecdhSecret [0] privateKey publicKey
      [1, 2, 3, 4, 5] = none := by
  simp only [encryptDecrypt]
  rw [show jsSlice [1, 2, 3, 4, 5] 0 7 ++ [1, 2, 3, 4, 5]
      = ([1, 2, 3, 4, 5, 1, 2, 3, 4, 5] : List Nat) from rfl]
  rw [ecbEncryptUpdate, if_pos (by simp)]
  rw [show ([0] : List Nat).length = 1 from rfl]
  rw [tileLoop, if_pos (by simp), if_pos (show ([] : List Nat).length = 0 from rfl)]
  rfl

end HmKitCrypto
